import Mathlib

/-!
# Verification of the `remark-code-import` extraction engine

Shallow embedding of `src/index.ts`. Strings are modelled as `List Char`
(`Str`). The platform line terminator `os.EOL` is fixed to `'\n'` (POSIX),
matching the environment the repository targets. JavaScript peculiarities that
the source relies on are modelled explicitly and noted at each definition:
`Array.prototype.slice` index coercion (`undefined + 1` is `NaN`, which
coerces to `0`; an `undefined` end bound means "to the end"), falsiness of
`0` and of the empty string, and `Array.prototype.shift` returning
`undefined` on an empty array.
-/

/-- Strings are modelled as lists of characters. -/
abbrev Str := List Char

/-- Splits a list on a separator character; models both JS
`String.prototype.split(sep)` for a one-character separator and Lean-side
line splitting. Always returns a non-empty list; `[] ↦ [[]]` as in JS. -/
def splitC (sep : Char) : Str → List Str
  | [] => [[]]
  | c :: rest =>
    if c = sep then [] :: splitC sep rest
    else
      match splitC sep rest with
      | [] => [[c]]
      | h :: t => (c :: h) :: t

/-- Models JS `String.prototype.includes(pat)`: `pat` occurs as a contiguous
substring. -/
def listIncludes (pat : Str) : Str → Bool
  | [] => pat.isEmpty
  | l@(_ :: rest) => pat.isPrefixOf l || listIncludes pat rest

/-- The character class `[\w\-_]` of the marker regex: ASCII alphanumerics,
underscore and hyphen (JS `\w` is `[A-Za-z0-9_]`). -/
def isWordChar (c : Char) : Bool := c.isAlphanum || c = '_' || c = '-'

/-- The literal the marker regex starts with: `group` followed by a space. -/
def groupKey : Str := ("group ").data

/-- Models `getGroup` (src/index.ts:25-30): `/group (?<group>[\w\-_]*)/.exec`.
Finds the leftmost occurrence of `"group "` and captures the (possibly
empty) maximal run of word characters after it; `none` when the regex does
not match, i.e. when `"group "` does not occur. -/
def getGroupL : Str → Option Str
  | [] => none
  | l@(_ :: rest) =>
    if groupKey.isPrefixOf l then some ((l.drop groupKey.length).takeWhile isWordChar)
    else getGroupL rest

/-- The line classification shared by `extractElements` and `extractGroups`
(src/index.ts:35-55 and 62-69): a line is a marker iff it contains
`"group"` and `getGroup` yields a name. -/
def markerName (line : Str) : Option Str :=
  if listIncludes ("group").data line then getGroupL line else none

/-- The `Element` union of src/index.ts:17-23. -/
inductive Element
  | text (t : Str)
  | group (g : Str)

/-- Models `extractElements` (src/index.ts:32-56): splits the placeholder
body on EOL and classifies each line. -/
def extractElements (input : Str) : List Element :=
  (splitC '\n' input).map fun line =>
    match markerName line with
    | some g => .group g
    | none => .text line

/-- The `Record<string, number[]>` marker index: absent keys are `none`,
matching JS `undefined` lookups. -/
def GroupMap := Str → Option (List Nat)

/-- The empty record. -/
def emptyGroupMap : GroupMap := fun _ => none

/-- Models `(map[group] ??= []).push(index)` (src/index.ts:66). -/
def pushIdx (m : GroupMap) (g : Str) (i : Nat) : GroupMap :=
  fun g2 => if g2 = g then some (((m g).getD []) ++ [i]) else m g2

/-- The indexed `forEach` loop of `extractGroups` (src/index.ts:62-69). -/
def extractGroupsFrom : GroupMap → Nat → List Str → GroupMap
  | m, _, [] => m
  | m, i, line :: rest =>
    extractGroupsFrom
      (match markerName line with
       | some g => pushIdx m g i
       | none => m) (i + 1) rest

/-- Models `extractGroups` (src/index.ts:58-71). -/
def extractGroups (content : List Str) : GroupMap :=
  extractGroupsFrom emptyGroupMap 0 content

/-- Models `content.slice(array.shift()! + 1, array.shift())`
(src/index.ts:86) including the JS coercions: a first `shift()` of
`undefined` gives `undefined + 1 = NaN`, which `slice` coerces to `0`; an
`undefined` second `shift()` means "slice to the end". -/
def shiftSlice (content : List Str) (p1 p2 : Option Nat) : List Str :=
  let start := match p1 with | none => 0 | some p => p + 1
  let stop := match p2 with | none => content.length | some q => q
  (content.drop start).take (stop - start)

/-- The `flatMap` replay loop of `transformDoc` (src/index.ts:78-91),
threading the mutable marker index. A lookup of an absent name makes
`array.shift()` throw a `TypeError` (`array` is `undefined`), modelled as
`Except.error`; diagnostics written with `console.error` are collected in
the first component. -/
def replay (content : List Str) : GroupMap → List Element → Except Str (List Str × List Str)
  | _, [] => .ok ([], [])
  | groups, .text t :: rest =>
    (replay content groups rest).map fun r => (r.1, t :: r.2)
  | groups, .group g :: rest =>
    match groups g with
    | none => .error (("TypeError: cannot read properties of undefined, group ").data ++ g)
    | some arr =>
      let ds := if arr.length < 2 then [("Group ").data ++ g ++ (" not found in document").data] else []
      let seg := shiftSlice content arr.head? arr.tail.head?
      let groups2 : GroupMap := fun g2 => if g2 = g then some arr.tail.tail else groups g2
      (replay content groups2 rest).map fun r => (ds ++ r.1, seg ++ r.2)

/-- Models `transformDoc` (src/index.ts:73-92): build the marker index, replay
the template, join with `"\n"`. -/
def transformDoc (content : List Str) (elements : List Element) : Except Str (List Str × Str) :=
  (replay content (extractGroups content) elements).map fun r =>
    (r.1, List.intercalate ['\n'] r.2)

/-- The two extraction modes (src/index.ts:95). -/
inductive Mode
  | classic
  | inline

/-- Models `extractLines` (src/index.ts:94-121). JS falsiness is modelled
explicitly: `fromLine || 1` maps both `undefined` and `0` to `1`, and
`else if (toLine)` treats `toLine = 0` as absent. Returns the collected
diagnostics and the result; `Except.error` models the `TypeError` that group
mode can throw. -/
def extractLines (mode : Mode) (content : Str) (fromLine : Option Nat) (hasDash : Bool)
    (toLine : Option Nat) (oldValue : Str) (preserveTrailingNewline : Bool) :
    Except Str (List Str × Str) :=
  let lines := splitC '\n' content
  match mode with
  | .classic =>
    let start := match fromLine with
      | some k => if k = 0 then 1 else k
      | none => 1
    let stop :=
      if hasDash = false then start
      else
        match toLine with
        | some t =>
          if t ≠ 0 then t
          else if lines.getLast? = some [] ∧ preserveTrailingNewline = false then lines.length - 1
          else lines.length
        | none =>
          if lines.getLast? = some [] ∧ preserveTrailingNewline = false then lines.length - 1
          else lines.length
    .ok ([], List.intercalate ['\n'] ((lines.drop (start - 1)).take (stop - (start - 1))))
  | .inline => transformDoc lines (extractElements oldValue)

/-- Models the mode decision `(node.meta || '').includes("inline")`
(src/index.ts:170): substring presence, not token equality. -/
def modeOf (meta : Str) : Mode :=
  if listIncludes ("inline").data meta then .inline else .classic

/-- Models `meta.split(/(?<!\\) /g)` (src/index.ts:141): split on every space
whose immediately preceding character is not a backslash. The first argument
tracks the previous character. -/
def splitUnescAux : Option Char → Str → List Str
  | _, [] => [[]]
  | prev, c :: rest =>
    if c = ' ' ∧ prev ≠ some '\\' then [] :: splitUnescAux (some c) rest
    else
      match splitUnescAux (some c) rest with
      | [] => [[c]]
      | h :: t => (c :: h) :: t

/-- Splits an annotation into tokens at unescaped spaces. -/
def splitUnesc (s : Str) : List Str := splitUnescAux none s

/-- Models `parseInt(digits, 10)` on a digit string (line numbers are far
below 2^53, so `Nat` is exact). -/
def digitsToNat (ds : Str) : Nat :=
  ds.foldl (fun acc c => acc * 10 + (c.toNat - ('0').toNat)) 0

/-- Matches the trailing `(?:L(?<to>\d+))?$` of the directive regex
(src/index.ts:153) against a remainder, in regex preference order: the
optional group present first, then absent (which requires the end of the
string). -/
def matchTo (r : Str) : Option (Option Nat) :=
  (match r with
   | 'L' :: r1 =>
     let ds := r1.takeWhile Char.isDigit
     if ds ≠ [] ∧ r1.drop ds.length = [] then some (some (digitsToNat ds)) else none
   | _ => none)
  <|> (if r = [] then some none else none)

/-- Matches `(?:L(?<from>\d+)(?<dash>-)?)?(?:L(?<to>\d+))?$` after the `#`
(src/index.ts:153), in regex backtracking order: `from` present (maximal
digits, then dash present before absent) before `from` absent. Shorter digit
runs never help, because the character after a shortened run is a digit and
no continuation of the pattern can consume a digit. -/
def matchFromDash (r1 : Str) : Option (Option Nat × Bool × Option Nat) :=
  (match r1 with
   | 'L' :: r2 =>
     let ds := r2.takeWhile Char.isDigit
     if ds = [] then none
     else
       let n := digitsToNat ds
       let r3 := r2.drop ds.length
       (match r3 with
        | '-' :: r4 => (matchTo r4).map fun t => (some n, true, t)
        | _ => none)
       <|> (matchTo r3).map fun t => (some n, false, t)
   | _ => none)
  <|> (matchTo r1).map fun t => (none, false, t)

/-- Matches the whole optional range suffix
`(?:(?:#(?:L(?<from>\d+)(?<dash>-)?)?)(?:L(?<to>\d+))?)?$`: an empty
remainder, or `#` followed by the range pattern. -/
def matchSuffix (r : Str) : Option (Option Nat × Bool × Option Nat) :=
  match r with
  | [] => some (none, false, none)
  | c :: r1 => if c = '#' then matchFromDash r1 else none

/-- The lazy `(?<path>.+?)` of the directive regex: try path lengths in
increasing order (the accumulator holds the path so far); `.` does not match
a line terminator; the first remainder accepted by `matchSuffix` wins. -/
def parseAux : Str → Str → Option (Str × (Option Nat × Bool × Option Nat))
  | _, [] => none
  | acc, c :: rest =>
    if c = '\n' ∨ c = '\r' then none
    else
      match matchSuffix rest with
      | some s => some (acc ++ [c], s)
      | none => parseAux (acc ++ [c]) rest

/-- Models the directive regex match of src/index.ts:152-164:
`/^file=(?<path>.+?)(?:(?:#(?:L(?<from>\d+)(?<dash>-)?)?)(?:L(?<to>\d+))?)?$/`.
Returns the path together with `from`, `dash` and `to`; `none` models a
failed `exec` (the code then throws "Unable to parse file path"). -/
def parseFileMeta (fm : Str) : Option (Str × (Option Nat × Bool × Option Nat)) :=
  if ("file=").data.isPrefixOf fm then parseAux [] (fm.drop 5) else none

/-- Models `.replace(/\\ /g, ' ')` (src/index.ts:167): every
backslash-space pair becomes a space, scanning left to right. -/
def unescapeSpaces : Str → Str
  | [] => []
  | '\\' :: ' ' :: rest => ' ' :: unescapeSpaces rest
  | c :: rest => c :: unescapeSpaces rest

/-- The root placeholder literal `<rootDir>`. -/
def rootDirToken : Str := ("<rootDir>").data

/-- Models `.replace(/^<rootDir>/, rootDir)` (src/index.ts:166). -/
def substRootDir (p rootDir : Str) : Str :=
  if rootDirToken.isPrefixOf p then rootDir ++ p.drop rootDirToken.length else p

/-- POSIX `path.isAbsolute`. -/
def isAbsolute (p : Str) : Bool :=
  match p with
  | '/' :: _ => true
  | _ => false

/-- Normalizes an absolute POSIX path to its segment list: empty and `.`
segments are dropped, `..` pops the previous segment (or is dropped at the
root), as `path.resolve` does on absolute paths. -/
def normSegs (p : Str) : List Str :=
  (splitC '/' p).foldl
    (fun acc seg =>
      if seg = [] ∨ seg = ['.'] then acc
      else if seg = ['.', '.'] then acc.dropLast
      else acc ++ [seg]) []

/-- Joins path segments with `/` (no leading separator). -/
def joinSegs (segs : List Str) : Str := List.intercalate ['/'] segs

/-- Length of the common prefix of two segment lists. -/
def commonPrefixLen : List Str → List Str → Nat
  | a :: as, b :: bs => if a = b then commonPrefixLen as bs + 1 else 0
  | _, _ => 0

/-- POSIX `path.relative` on absolute paths: normalize both, drop the common
segment prefix, then one `..` per remaining segment of `from` followed by
the remaining segments of `to`. Equal paths give the empty string. -/
def pathRelative (fromP toP : Str) : Str :=
  let f := normSegs fromP
  let t := normSegs toP
  let c := commonPrefixLen f t
  joinSegs (List.replicate (f.length - c) ("..").data ++ t.drop c)

/-- POSIX `path.resolve(dir, p)` for an absolute `dir` (the only case the
transformer exercises: `file.dirname` and `rootDir` are absolute): an
absolute `p` is normalized on its own, otherwise `dir ++ "/" ++ p` is. -/
def posixResolve (dir p : Str) : Str :=
  if isAbsolute p then '/' :: joinSegs (normSegs p)
  else '/' :: joinSegs (normSegs (dir ++ '/' :: p))

/-- The sandbox violation message of src/index.ts:179-181, naming both the
resolved path and the root. -/
def sandboxErrMsg (fileAbs rootDir : Str) : Str :=
  ("Attempted to import code from \"").data ++ fileAbs
    ++ ("\", which is outside from the rootDir \"").data ++ rootDir ++ ("\"").data

/-- Models the sandbox check of src/index.ts:172-183: skipped entirely when
`allowImportingFromOutside` holds; otherwise throws when `rootDir` is falsy
(empty), or the relative location starts with the three characters `../`, or
it is absolute. -/
def checkSandbox (allow : Bool) (rootDir fileAbs : Str) : Except Str Unit :=
  if allow then .ok ()
  else
    let rel := pathRelative rootDir fileAbs
    if rootDir = [] ∨ ("../").data.isPrefixOf rel = true ∨ isAbsolute rel = true then
      .error (sandboxErrMsg fileAbs rootDir)
    else .ok ()

/-- The recognized options of `CodeImportOptions` (src/index.ts:9-15);
`rootDir` is passed separately as a `Str`. -/
structure Options where
  async : Bool
  preserveTrailingNewline : Bool
  removeRedundantIndentations : Bool
  allowImportingFromOutside : Bool

/-- What processing one code placeholder produces: which file (if any) was
read, the diagnostics, and the new body. A skipped placeholder reads no file
and keeps its body. -/
structure Outcome where
  readPath : Option Str
  diagnostics : List Str
  newValue : Str

/-- Models the per-placeholder body of the transformer loop
(src/index.ts:138-225). External collaborators are parameters: `readFile`
is the file system, `stripIndentFn` is the `strip-indent` package. The sync
and async paths run the same per-node steps, so one function models both. -/
def processNode (opts : Options) (rootDir : Str) (dirname : Option Str)
    (readFile : Str → Str) (stripIndentFn : Str → Str)
    (meta value : Str) : Except Str Outcome :=
  match (splitUnesc meta).find? (fun t => ("file=").data.isPrefixOf t) with
  | none => .ok ⟨none, [], value⟩
  | some fm =>
    if dirname = none ∨ dirname = some [] then
      .error ("\"file\" should be an instance of VFile").data
    else
      match parseFileMeta fm with
      | none => .error (("Unable to parse file path ").data ++ fm)
      | some (fp, fromL, dash, toL) =>
        let hasDash : Bool := dash || fromL.isNone
        let normalized := unescapeSpaces (substRootDir fp rootDir)
        let fileAbs := posixResolve (dirname.getD []) normalized
        let mode := modeOf meta
        match checkSandbox opts.allowImportingFromOutside rootDir fileAbs with
        | .error e => .error e
        | .ok _ =>
          let content := readFile fileAbs
          match extractLines mode content fromL hasDash toL value opts.preserveTrailingNewline with
          | .error e => .error e
          | .ok (ds, nv) =>
            .ok ⟨some fileAbs, ds,
              if opts.removeRedundantIndentations then stripIndentFn nv else nv⟩

/-- Reference description of the marker positions `extractGroups` collects
for one name: the 0-based indices (counting from `i`) of the lines classified
as markers for `g`, in file order. -/
def occurrences (g : Str) : Nat → List Str → List Nat
  | _, [] => []
  | i, line :: rest =>
    (if markerName line = some g then [i] else []) ++ occurrences g (i + 1) rest

/-- Modelled from the spec's words for C7 (§4.3 and §8): the lines of `F`
from `n` to the end, excluding one trailing empty line when `F` ends with
the line terminator, joined with `\n`. -/
def classicTailSpec (F : Str) (n : Nat) : Str :=
  let L := splitC '\n' F
  let L2 := if F.getLast? = some '\n' then L.dropLast else L
  List.intercalate ['\n'] (L2.drop (n - 1))

/-! ## Helper lemmas -/

theorem listIncludes_iff_infix (pat l : Str) : listIncludes pat l = true ↔ pat <:+: l := by
  induction l with
  | nil => simp [listIncludes, List.isEmpty_iff, List.infix_nil]
  | cons c rest ih =>
    simp [listIncludes, Bool.or_eq_true, List.isPrefixOf_iff_prefix, ih, List.infix_cons_iff]

/-! ## Claim theorems -/

/-- C1 (code bug): on the spec's scenario — template body
`a\n<!-- group x -->\n<!-- group x -->\nb` against file content
`1\n<!-- group x -->\n2\n<!-- group x -->\n3` — the code does NOT return
`a\n2\nb`.  The second `group x` reference finds an exhausted queue; the two
`shift()` calls yield `undefined`, and `content.slice(NaN, undefined)`
copies the whole file, so the result is
`a\n2\n1\n<!-- group x -->\n2\n<!-- group x -->\n3\nb` (plus a
"Group x not found in document" diagnostic). -/
theorem c1_scenario_eval :
    transformDoc (splitC '\n' ("1\n<!-- group x -->\n2\n<!-- group x -->\n3").data)
        (extractElements ("a\n<!-- group x -->\n<!-- group x -->\nb").data)
      = .ok ([("Group x not found in document").data],
          ("a\n2\n1\n<!-- group x -->\n2\n<!-- group x -->\n3\nb").data) := by
  rfl

/-- C2 (code bug): a group reference whose marker queue holds fewer than two
positions does not "emit nothing and continue".  When the name has no
occurrence at all, `groups[name]` is `undefined` and `array.shift()` throws a
`TypeError` — fatal, with no diagnostic (first conjunct).  When one position
remains, the diagnostic is printed but the emitted segment is the whole rest
of the file after the marker, not an empty segment (second conjunct). -/
theorem c2_missing_pair_eval :
    transformDoc [("hello").data] [Element.group ("x").data]
        = .error (("TypeError: cannot read properties of undefined, group ").data ++ ("x").data)
    ∧ transformDoc [("group x").data, ("A").data, ("B").data] [Element.group ("x").data]
        = .ok ([("Group x not found in document").data], ("A\nB").data) :=
  ⟨rfl, rfl⟩

/-- C3, counterexample: the annotation `file=inline.ts` contains no separate
whitespace-delimited token equal to `inline` — the only token is
`file=inline.ts` — yet the code classifies the directive as group mode,
because src/index.ts:170 tests substring presence with `.includes`. -/
theorem c3_counterexample :
    modeOf ("file=inline.ts").data = Mode.inline
    ∧ ("inline").data ∉ splitC ' ' ("file=inline.ts").data :=
  ⟨rfl, by decide⟩

/-- C3, amended: the directive's mode is `Group` exactly when the annotation
contains the literal `inline` as a substring anywhere (not necessarily as a
separate token); otherwise it is `Classic`. -/
theorem c3_mode_iff_substring (meta : Str) :
    modeOf meta = Mode.inline ↔ ("inline").data <:+: meta := by
  rw [← listIncludes_iff_infix]
  cases hb : listIncludes ("inline").data meta <;> simp [modeOf, hb]

/-- C10: classic-mode extraction is independent of the placeholder's prior
body — for any two prior bodies the result of `extractLines` in classic mode
is identical (two-run noninterference; only group mode reads `oldValue`). -/
theorem c10_classic_ignores_prior_body (content : Str) (fromL : Option Nat) (hasDash : Bool)
    (toL : Option Nat) (o1 o2 : Str) (pres : Bool) :
    extractLines Mode.classic content fromL hasDash toL o1 pres
      = extractLines Mode.classic content fromL hasDash toL o2 pres := rfl

/-! ## Marker index characterization -/

theorem extractGroupsFrom_eq (content : List Str) :
    ∀ (m : GroupMap) (i : Nat) (g : Str),
      extractGroupsFrom m i content g
        = if occurrences g i content = [] then m g
          else some ((m g).getD [] ++ occurrences g i content) := by
  induction content with
  | nil =>
    intro m i g
    simp [extractGroupsFrom, occurrences]
  | cons line rest ih =>
    intro m i g
    simp only [extractGroupsFrom, occurrences]
    cases hm : markerName line with
    | none =>
      rw [ih]
      simp [hm]
    | some g0 =>
      by_cases hg : g0 = g
      · subst hg
        rw [ih]
        simp only [hm, if_pos rfl]
        cases h2 : occurrences g0 (i + 1) rest with
        | nil => simp [pushIdx]
        | cons x xs => simp [pushIdx, List.append_assoc]
      · rw [ih]
        have hne : ¬ (some g0 = some g) := by simpa using hg
        have hne2 : ¬ g = g0 := fun hh => hg hh.symm
        simp [hm, hne, pushIdx, hne2]

theorem extractGroups_eq (content : List Str) (g : Str) :
    extractGroups content g
      = if occurrences g 0 content = [] then none
        else some (occurrences g 0 content) := by
  rw [extractGroups, extractGroupsFrom_eq]
  simp [emptyGroupMap]

theorem occurrences_le (g : Str) :
    ∀ (i : Nat) (content : List Str), ∀ j ∈ occurrences g i content, i ≤ j := by
  intro i content
  induction content generalizing i with
  | nil => simp [occurrences]
  | cons line rest ih =>
    intro j hj
    simp only [occurrences, List.mem_append] at hj
    rcases hj with hj | hj
    · by_cases hm : markerName line = some g
      · simp [hm] at hj
        omega
      · simp [hm] at hj
    · have := ih (i + 1) j hj
      omega

theorem occurrences_sorted (g : Str) :
    ∀ (i : Nat) (content : List Str), (occurrences g i content).Sorted (· < ·) := by
  intro i content
  induction content generalizing i with
  | nil => simp [occurrences]
  | cons line rest ih =>
    by_cases hm : markerName line = some g
    · have hcons : occurrences g i (line :: rest) = i :: occurrences g (i + 1) rest := by
        simp [occurrences, hm]
      rw [hcons, List.sorted_cons]
      refine ⟨fun b hb => ?_, ih (i + 1)⟩
      have := occurrences_le g (i + 1) rest b hb
      omega
    · have hcons : occurrences g i (line :: rest) = occurrences g (i + 1) rest := by
        simp [occurrences, hm]
      rw [hcons]
      exact ih (i + 1)

theorem occurrences_append (g : Str) :
    ∀ (i : Nat) (xs ys : List Str),
      occurrences g i (xs ++ ys) = occurrences g i xs ++ occurrences g (i + xs.length) ys := by
  intro i xs
  induction xs generalizing i with
  | nil => simp [occurrences]
  | cons x xs ih =>
    intro ys
    rw [List.cons_append]
    simp only [occurrences, List.length_cons]
    rw [ih (i + 1) ys, List.append_assoc]
    have heq : i + 1 + xs.length = i + (xs.length + 1) := by omega
    rw [heq]

theorem occurrences_eq_nil (g : Str) :
    ∀ (i : Nat) (xs : List Str), (∀ l ∈ xs, markerName l ≠ some g) → occurrences g i xs = [] := by
  intro i xs
  induction xs generalizing i with
  | nil => intro _; simp [occurrences]
  | cons x xs ih =>
    intro h
    simp only [occurrences]
    rw [if_neg (h x (List.mem_cons_self x xs)),
      ih (i + 1) (fun l hl => h l (List.mem_cons_of_mem x hl))]
    rfl

/-! ## Replay lemmas -/

theorem replay_texts_then (content : List Str) (m : GroupMap) (ts : List Str)
    (rest : List Element) :
    replay content m (ts.map Element.text ++ rest)
      = (replay content m rest).map fun r => (r.1, ts ++ r.2) := by
  induction ts with
  | nil =>
    cases h : replay content m rest <;> simp [h, Except.map]
  | cons t ts ih =>
    have step : ∀ (l : List Element),
        replay content m (Element.text t :: l)
          = (replay content m l).map fun r => (r.1, t :: r.2) := fun _ => rfl
    rw [List.map_cons, List.cons_append, step, ih]
    cases h : replay content m rest <;> simp [h, Except.map]

theorem replay_texts (content : List Str) (m : GroupMap) (ts : List Str) :
    replay content m (ts.map Element.text) = .ok ([], ts) := by
  have := replay_texts_then content m ts []
  simpa [replay, Except.map] using this

theorem replay_group_cons (content : List Str) (m : GroupMap) (g : Str) (arr : List Nat)
    (l : List Element) (hm : m g = some arr) :
    replay content m (Element.group g :: l)
      = (replay content (fun g2 => if g2 = g then some arr.tail.tail else m g2) l).map
          fun r =>
            ((if arr.length < 2 then
                [("Group ").data ++ g ++ (" not found in document").data] else []) ++ r.1,
              shiftSlice content arr.head? arr.tail.head? ++ r.2) := by
  simp only [replay, hm]

/-- C6: round-trip — for a file made of a marker line for `g`, intermediate
content lines (none of which is itself a marker for `g`, so that the closing
line is the file's second `g` marker), and a second marker line for `g`,
replaying the one-element template `[GroupRef g]` returns exactly the
intermediate lines, joined with `\n`, with no diagnostics. -/
theorem c6_roundtrip (g m1 m2 : Str) (mid : List Str)
    (h1 : markerName m1 = some g) (h2 : markerName m2 = some g)
    (hmid : ∀ l ∈ mid, markerName l ≠ some g) :
    transformDoc (m1 :: (mid ++ [m2])) [Element.group g]
      = .ok ([], List.intercalate ['\n'] mid) := by
  have hocc : occurrences g 0 (m1 :: (mid ++ [m2])) = [0, mid.length + 1] := by
    have e1 : occurrences g 0 (m1 :: (mid ++ [m2])) = 0 :: occurrences g 1 (mid ++ [m2]) := by
      simp [occurrences, h1]
    have e2 := occurrences_append g 1 mid [m2]
    have e3 := occurrences_eq_nil g 1 mid hmid
    have e4 : occurrences g (1 + mid.length) [m2] = [1 + mid.length] := by
      simp [occurrences, h2]
    rw [e1, e2, e3, e4]
    simp [Nat.add_comm]
  have hmap : extractGroups (m1 :: (mid ++ [m2])) g = some [0, mid.length + 1] := by
    rw [extractGroups_eq, hocc]
    simp
  simp only [transformDoc]
  rw [replay_group_cons _ _ _ _ _ hmap]
  have hnil : ∀ (m : GroupMap), replay (m1 :: (mid ++ [m2])) m [] = .ok ([], []) :=
    fun _ => rfl
  rw [hnil]
  simp [Except.map, shiftSlice, List.take_left]

/-- C5: with exactly four occurrences of group `g` in the file (positions
`[a, b, c, d]`, necessarily in ascending file order) and a template that
references `g` twice (with arbitrary literal text around the references),
the first reference yields exactly the lines strictly between the first and
second occurrences (`content[a+1..b)`), the second the lines strictly
between the third and fourth (`content[c+1..d)`): consumption is FIFO and
destructive, so the pairs never interleave and a consumed pair is not
reused. -/
theorem c5_fifo_pairs (content : List Str) (g : Str) (a b c d : Nat)
    (ts1 ts2 ts3 : List Str)
    (h : extractGroups content g = some [a, b, c, d]) :
    a < b ∧ c < d ∧
    transformDoc content
        (ts1.map Element.text ++ [Element.group g] ++ ts2.map Element.text
          ++ [Element.group g] ++ ts3.map Element.text)
      = .ok ([], List.intercalate ['\n']
          (ts1 ++ (content.drop (a + 1)).take (b - (a + 1))
            ++ ts2 ++ (content.drop (c + 1)).take (d - (c + 1)) ++ ts3)) := by
  have hocc : occurrences g 0 content = [a, b, c, d] := by
    have he := extractGroups_eq content g
    rw [h] at he
    by_cases h0 : occurrences g 0 content = []
    · rw [if_pos h0] at he
      exact absurd he (by simp)
    · rw [if_neg h0] at he
      exact (Option.some.inj he).symm
  have hsort := occurrences_sorted g 0 content
  rw [hocc] at hsort
  simp [List.sorted_cons] at hsort
  refine ⟨by omega, by omega, ?_⟩
  simp only [transformDoc, List.append_assoc, List.singleton_append, List.cons_append]
  rw [replay_texts_then]
  rw [replay_group_cons _ _ _ _ _ h]
  simp only [List.nil_append]
  rw [replay_texts_then]
  have hm1 : (fun g2 => if g2 = g then some (([a, b, c, d] : List Nat).tail.tail)
      else extractGroups content g2) g = some [c, d] := by simp
  rw [replay_group_cons _ _ _ _ _ hm1]
  rw [replay_texts]
  simp [Except.map, shiftSlice, List.append_assoc]

theorem c5_witness :
    extractGroups
        [("group x").data, ("A").data, ("group x").data, ("group x").data,
          ("B").data, ("group x").data] ("x").data = some [0, 2, 3, 5]
    ∧ (0 < 2 ∧ 3 < 5 ∧
        transformDoc
            [("group x").data, ("A").data, ("group x").data, ("group x").data,
              ("B").data, ("group x").data]
            (([] : List Str).map Element.text ++ [Element.group ("x").data]
              ++ ([] : List Str).map Element.text ++ [Element.group ("x").data]
              ++ ([] : List Str).map Element.text)
          = .ok ([], List.intercalate ['\n']
              (([] : List Str)
                ++ (([("group x").data, ("A").data, ("group x").data, ("group x").data,
                      ("B").data, ("group x").data].drop (0 + 1)).take (2 - (0 + 1)))
                ++ ([] : List Str)
                ++ (([("group x").data, ("A").data, ("group x").data, ("group x").data,
                      ("B").data, ("group x").data].drop (3 + 1)).take (5 - (3 + 1)))
                ++ ([] : List Str)))) :=
  ⟨by decide,
    c5_fifo_pairs
      [("group x").data, ("A").data, ("group x").data, ("group x").data,
        ("B").data, ("group x").data]
      ("x").data 0 2 3 5 [] [] [] (by decide)⟩

theorem c6_witness :
    transformDoc [("group a").data, ("hello").data, ("world").data, ("group a").data]
        [Element.group ("a").data]
      = .ok ([], List.intercalate ['\n'] [("hello").data, ("world").data]) := by
  exact c6_roundtrip ("a").data ("group a").data ("group a").data
    [("hello").data, ("world").data] (by decide) (by decide) (by decide)

/-! ## Line splitting and trailing newlines -/

theorem getLast?_cons_ne_nil {α : Type} (a : α) (l : List α) (h : l ≠ []) :
    (a :: l).getLast? = l.getLast? := by
  cases l with
  | nil => exact absurd rfl h
  | cons b t => exact List.getLast?_cons_cons

theorem splitC_ne_nil (sep : Char) : ∀ (l : Str), splitC sep l ≠ []
  | [] => by simp [splitC]
  | c :: rest => by
    simp only [splitC]
    by_cases hc : c = sep
    · simp [hc]
    · simp only [if_neg hc]
      cases h : splitC sep rest <;> simp

theorem two_le_length_splitC (sep : Char) : ∀ (l : Str), sep ∈ l → 2 ≤ (splitC sep l).length := by
  intro l
  induction l with
  | nil => intro h; cases h
  | cons c rest ih =>
    intro hmem
    by_cases hc : c = sep
    · have h1 : splitC sep (c :: rest) = [] :: splitC sep rest := by simp [splitC, hc]
      rw [h1]
      have h2 := List.length_pos.mpr (splitC_ne_nil sep rest)
      simp only [List.length_cons]
      omega
    · have hmem2 : sep ∈ rest := by
        rcases List.mem_cons.mp hmem with h | h
        · exact absurd h.symm hc
        · exact h
      cases hs : splitC sep rest with
      | nil => exact absurd hs (splitC_ne_nil sep rest)
      | cons h t =>
        have h1 : splitC sep (c :: rest) = (c :: h) :: t := by simp [splitC, hc, hs]
        rw [h1]
        have h3 := ih hmem2
        rw [hs] at h3
        simp only [List.length_cons] at h3 ⊢
        omega

theorem splitC_last_empty_iff : ∀ (l : Str),
    ((splitC '\n' l).getLast? = some []) ↔ (l = [] ∨ l.getLast? = some '\n') := by
  intro l
  induction l with
  | nil => simp [splitC]
  | cons c rest ih =>
    by_cases hc : c = '\n'
    · subst hc
      have h1 : splitC '\n' ('\n' :: rest) = [] :: splitC '\n' rest := by simp [splitC]
      rw [h1, getLast?_cons_ne_nil _ _ (splitC_ne_nil '\n' rest), ih]
      cases rest with
      | nil => simp
      | cons d ds => simp [List.getLast?_cons_cons]
    · cases hs : splitC '\n' rest with
      | nil => exact absurd hs (splitC_ne_nil '\n' rest)
      | cons h t =>
        have h1 : splitC '\n' (c :: rest) = (c :: h) :: t := by simp [splitC, hc, hs]
        rw [h1]
        cases t with
        | nil =>
          constructor
          · intro hx
            simp at hx
          · intro hx
            rcases hx with hx | hx
            · cases hx
            · cases rest with
              | nil =>
                simp at hx
                exact absurd hx hc
              | cons d ds =>
                rw [List.getLast?_cons_cons] at hx
                have hmem : '\n' ∈ d :: ds := by
                  obtain ⟨hne, he⟩ := List.mem_getLast?_eq_getLast (l := d :: ds) (x := '\n') hx
                  rw [he]
                  exact List.getLast_mem hne
                have h2 := two_le_length_splitC '\n' (d :: ds) hmem
                rw [hs] at h2
                simp at h2
        | cons t1 t2 =>
          rw [getLast?_cons_ne_nil _ _ (by simp)]
          have e : (splitC '\n' rest).getLast? = (t1 :: t2).getLast? := by
            rw [hs, List.getLast?_cons_cons]
          rw [← e, ih]
          have hrest : rest ≠ [] := by
            intro hr
            rw [hr] at hs
            simp [splitC] at hs
          cases rest with
          | nil => exact absurd rfl hrest
          | cons d ds => simp [List.getLast?_cons_cons]

/-- C7: for every file content `F` and from-line `n`, classic extraction with
`from = n`, a dash, no `toLine` and `preserveTrailingNewline = false` returns
`F`'s lines from `n` to the end — excluding one trailing empty line exactly
when `F` ends with the line terminator — joined with `\n`
(`classicTailSpec` renders the spec's words; the prior body is irrelevant). -/
theorem c7_dash_to_end (F oldV : Str) (n : Nat) :
    extractLines Mode.classic F (some n) true none oldV false
      = .ok ([], classicTailSpec F n) := by
  have hn : (if n = 0 then 1 else n) - 1 = n - 1 := by
    rcases n with _ | n <;> simp
  by_cases hF : F = []
  · subst hF
    rcases n with _ | n
    · rfl
    · rcases n with _ | n
      · rfl
      · simp [extractLines, classicTailSpec, splitC]
  · by_cases hend : F.getLast? = some '\n'
    · have hl : (splitC '\n' F).getLast? = some [] := (splitC_last_empty_iff F).mpr (Or.inr hend)
      simp only [extractLines, classicTailSpec]
      simp [hl, hend, hn]
      rw [List.dropLast_eq_take, List.drop_take]
    · have hl : (splitC '\n' F).getLast? ≠ some [] := by
        intro hx
        rcases (splitC_last_empty_iff F).mp hx with h | h
        · exact hF h
        · exact hend h
      simp [extractLines, classicTailSpec, hl, hend, hn]
      rw [← List.length_drop, List.take_length]

/-! ## Directive parsing -/

theorem takeWhile_append_cons_false (p : Char → Bool) (xs : Str) (y : Char) (yt : Str)
    (hxs : ∀ c ∈ xs, p c = true) (hy : p y = false) :
    (xs ++ y :: yt).takeWhile p = xs := by
  induction xs with
  | nil => simp [List.takeWhile_cons, hy]
  | cons x xs ih =>
    have hx := hxs x (List.mem_cons_self x xs)
    simp [List.takeWhile_cons, hx, ih (fun c hc => hxs c (List.mem_cons_of_mem x hc))]

theorem matchTo_digits (sm : Str) (hsm : sm ≠ []) (hdm : ∀ c ∈ sm, c.isDigit = true) :
    matchTo ('L' :: sm) = some (some (digitsToNat sm)) := by
  have hds2 : sm.takeWhile Char.isDigit = sm := List.takeWhile_eq_self_iff.mpr hdm
  simp only [matchTo, hds2]
  rw [if_pos ⟨hsm, List.drop_length sm⟩]
  rfl

theorem matchSuffix_range (sn sm : Str) (hsn : sn ≠ []) (hsm : sm ≠ [])
    (hdn : ∀ c ∈ sn, c.isDigit = true) (hdm : ∀ c ∈ sm, c.isDigit = true) :
    matchSuffix (('#' :: 'L' :: sn) ++ ('-' :: 'L' :: sm))
      = some (some (digitsToNat sn), true, some (digitsToNat sm)) := by
  have hds : (sn ++ ('-' :: 'L' :: sm)).takeWhile Char.isDigit = sn :=
    takeWhile_append_cons_false _ _ _ _ hdn (by decide)
  simp only [List.cons_append, matchSuffix, if_pos rfl]
  simp only [matchFromDash, hds]
  rw [if_neg hsn, List.drop_left]
  rw [show (match ('-' :: 'L' :: sm : Str) with
        | '-' :: r4 => (matchTo r4).map fun t => (some (digitsToNat sn), true, t)
        | _ => none)
      = (matchTo ('L' :: sm)).map fun t => (some (digitsToNat sn), true, t) from rfl]
  rw [matchTo_digits sm hsm hdm]
  rfl

theorem parseAux_through :
    ∀ (p acc suffix : Str) (s : Option Nat × Bool × Option Nat),
      p ≠ [] → (∀ c ∈ p, c ≠ '#' ∧ c ≠ '\n' ∧ c ≠ '\r') →
      matchSuffix suffix = some s → suffix.head? = some '#' →
      parseAux acc (p ++ suffix) = some (acc ++ p, s) := by
  intro p
  induction p with
  | nil => intro _ _ _ h _ _ _; exact absurd rfl h
  | cons c p ih =>
    intro acc suffix s _ hchars hm hh
    have hc := hchars c (List.mem_cons_self c p)
    rw [List.cons_append]
    simp only [parseAux]
    rw [if_neg (by push_neg; exact ⟨hc.2.1, hc.2.2⟩)]
    cases p with
    | nil =>
      rw [List.nil_append]
      simp [hm]
    | cons c2 p2 =>
      have hc2 := (hchars c2 (by simp)).1
      have hms : matchSuffix ((c2 :: p2) ++ suffix) = none := by
        rw [List.cons_append]
        simp [matchSuffix, hc2]
      rw [hms]
      have hrec := ih (acc ++ [c]) suffix s (by simp)
        (fun d hd => hchars d (List.mem_cons_of_mem c hd)) hm hh
      rw [hrec]
      simp [List.append_assoc]

/-- C4: a directive `file=<p>#L<n>-L<m>` with `m < n` (digit strings `sn`,
`sm`; line numbers are 1-based, so `m ≥ 1`) raises no error at parse time —
the regex accepts it and returns `from = n`, a dash and `to = m` — and on
every file content the classic range extractor yields an empty result
(`slice(n-1, m)` with `m < n` is empty). -/
theorem c4_reversed_range (p sn sm content oldV : Str) (pres : Bool)
    (hp : p ≠ []) (hpc : ∀ c ∈ p, c ≠ '#' ∧ c ≠ '\n' ∧ c ≠ '\r')
    (hsn : sn ≠ []) (hsm : sm ≠ [])
    (hdn : ∀ c ∈ sn, c.isDigit = true) (hdm : ∀ c ∈ sm, c.isDigit = true)
    (hm1 : 1 ≤ digitsToNat sm) (hlt : digitsToNat sm < digitsToNat sn) :
    parseFileMeta (("file=").data ++ (p ++ (('#' :: 'L' :: sn) ++ ('-' :: 'L' :: sm))))
      = some (p, (some (digitsToNat sn), true, some (digitsToNat sm)))
    ∧ extractLines Mode.classic content (some (digitsToNat sn)) true (some (digitsToNat sm))
        oldV pres = .ok ([], []) := by
  constructor
  · simp only [parseFileMeta]
    rw [if_pos (List.isPrefixOf_iff_prefix.mpr ⟨_, rfl⟩)]
    rw [List.drop_left' (by decide)]
    rw [parseAux_through p [] _ _ hp hpc (matchSuffix_range sn sm hsn hsm hdn hdm) rfl]
    simp
  · have hn0 : ¬ (digitsToNat sn = 0) := by omega
    have hm0 : digitsToNat sm ≠ 0 := by omega
    simp only [extractLines]
    rw [if_neg hn0]
    simp only [if_pos hm0]
    have hz : digitsToNat sm - (digitsToNat sn - 1) = 0 := by omega
    simp [hz]
    rfl

theorem c4_witness :
    parseFileMeta (("file=").data ++ ((['a'] : Str)
        ++ (('#' :: 'L' :: (['5'] : Str)) ++ ('-' :: 'L' :: (['3'] : Str)))))
      = some (['a'], (some (digitsToNat ['5']), true, some (digitsToNat ['3'])))
    ∧ extractLines Mode.classic ("x\ny\nz").data (some (digitsToNat ['5'])) true
        (some (digitsToNat ['3'])) [] false = .ok ([], []) :=
  c4_reversed_range ['a'] ['5'] ['3'] ("x\ny\nz").data [] false (by decide) (by decide)
    (by decide) (by decide) (by decide) (by decide) (by decide) (by decide)

/-! ## Sandbox check and orchestrator -/

/-- C8, counterexample: a directive resolving to the rootDir's immediate
parent defeats the check.  With `rootDir = /root/sub` and document dir
`/root/sub`, the path `..` resolves to `/root`; its location relative to the
root is exactly `..` — it begins with (indeed consists of) a
parent-directory traversal segment, so the claim demands a fatal error — yet
`"..".startsWith("../")` is false and the check passes. -/
theorem c8_counterexample :
    pathRelative ("/root/sub").data ("/root").data = ("..").data
    ∧ checkSandbox false ("/root/sub").data ("/root").data = .ok ()
    ∧ posixResolve ("/root/sub").data ("..").data = ("/root").data :=
  ⟨rfl, rfl, rfl⟩

/-- C8, amended: when `allowImportingFromOutside` is false the pass fails
fatally — with an error naming both the resolved path and the root — exactly
when the resolved path's location relative to the root starts with the three
characters `../` (a traversal segment followed by a separator) or is itself
absolute; the one escape this misses is a path whose relative location is
exactly `..` (the root's immediate parent).  When the flag is true the check
is skipped entirely. -/
theorem c8_sandbox_amended (rootDir fileAbs : Str)
    (h : ("../").data.isPrefixOf (pathRelative rootDir fileAbs) = true
        ∨ isAbsolute (pathRelative rootDir fileAbs) = true) :
    checkSandbox false rootDir fileAbs = .error (sandboxErrMsg fileAbs rootDir)
    ∧ fileAbs <:+: sandboxErrMsg fileAbs rootDir
    ∧ rootDir <:+: sandboxErrMsg fileAbs rootDir
    ∧ checkSandbox true rootDir fileAbs = .ok () := by
  refine ⟨?_, ?_, ?_, rfl⟩
  · have hb : checkSandbox false rootDir fileAbs
        = (if rootDir = [] ∨ ("../").data.isPrefixOf (pathRelative rootDir fileAbs) = true
              ∨ isAbsolute (pathRelative rootDir fileAbs) = true then
            Except.error (sandboxErrMsg fileAbs rootDir)
          else Except.ok ()) := rfl
    rw [hb, if_pos (Or.inr h)]
  · exact ⟨("Attempted to import code from \"").data,
      ("\", which is outside from the rootDir \"").data ++ rootDir ++ ("\"").data,
      by simp [sandboxErrMsg, List.append_assoc]⟩
  · exact ⟨("Attempted to import code from \"").data ++ fileAbs
        ++ ("\", which is outside from the rootDir \"").data,
      ("\"").data, by simp [sandboxErrMsg, List.append_assoc]⟩

theorem c8_witness :
    (("../").data.isPrefixOf (pathRelative ("/root").data ("/secret").data) = true
        ∨ isAbsolute (pathRelative ("/root").data ("/secret").data) = true)
    ∧ (checkSandbox false ("/root").data ("/secret").data
          = .error (sandboxErrMsg ("/secret").data ("/root").data)
        ∧ ("/secret").data <:+: sandboxErrMsg ("/secret").data ("/root").data
        ∧ ("/root").data <:+: sandboxErrMsg ("/secret").data ("/root").data
        ∧ checkSandbox true ("/root").data ("/secret").data = .ok ()) :=
  ⟨Or.inl rfl, c8_sandbox_amended ("/root").data ("/secret").data (Or.inl rfl)⟩

/-- C9: a code placeholder whose annotation has no unescaped-space-delimited
token starting with `file=` is skipped entirely: `processNode` returns
successfully, reads no file (the outcome holds no read path, and the result
does not depend on the `readFile` collaborator at all, which is universally
quantified), and leaves the body unchanged. -/
theorem c9_skip_without_directive (opts : Options) (rootDir : Str) (dirname : Option Str)
    (readFile stripIndentFn : Str → Str) (meta value : Str)
    (h : ∀ t ∈ splitUnesc meta, ("file=").data.isPrefixOf t = false) :
    processNode opts rootDir dirname readFile stripIndentFn meta value
      = .ok ⟨none, [], value⟩ := by
  have hfind : (splitUnesc meta).find? (fun t => ("file=").data.isPrefixOf t) = none :=
    List.find?_eq_none.mpr (fun x hx => by simp [h x hx])
  simp only [processNode, hfind]

theorem c9_witness :
    processNode ⟨false, false, false, false⟩ ("/r").data (some (("/r").data))
        (fun _ => []) (fun _ => []) ("ts title=hello").data ("body").data
      = .ok ⟨none, [], ("body").data⟩ :=
  c9_skip_without_directive ⟨false, false, false, false⟩ ("/r").data (some (("/r").data))
    (fun _ => []) (fun _ => []) ("ts title=hello").data ("body").data (by decide)
